import Mathlib

/-!
Verification of the mips_debug runtime-support toolkit.

This file gives a shallow embedding of the C sources:
  - backtrace.h : backtrace_mips32 (heuristic MIPS32 stack unwinder),
    backtrace_symbols (address-to-symbol formatter), print_stack_trace
    (reporter glue);
  - the logger implementation (log_log and its configuration record);
  - measure.c / timer.c : measure_diff and timespec_to_ms.

Machine integers are modelled as Nat with explicit reduction modulo 2^32
where the 32-bit code relies on wrap-around (the target is ELF class 32,
so unsigned long, size_t and pointers are 32 bits wide and WORD_WIDTH is 8).
Raw process memory is a function from byte addresses to 32-bit words, and
the two instruction scans of backtrace_mips32, whose C loops have no a
priori bound, are embedded as structurally recursive functions on an
explicit fuel parameter: returning none means the C loop has not finished
within that much fuel.
-/

/-! ## Basic 32-bit machine arithmetic -/

/-- 2^32, the modulus of 32-bit unsigned arithmetic. -/
def M32 : Nat := 4294967296

/-- Sign extension of a 16-bit immediate, the C cast (short)(w & 0xffff). -/
def signext16 (x : Nat) : Int :=
  if x < 32768 then (x : Int) else (x : Int) - 65536

/-- Conversion of a signed value to size_t / unsigned long on a 32-bit
target (reduction modulo 2^32, always non-negative). -/
def toU32 (i : Int) : Nat := (i % (M32 : Int)).toNat

/-- A 32-bit word load from process memory at a byte address. -/
def read32 (mem : Nat → Nat) (a : Nat) : Nat := mem a % M32

/-! ## Hexadecimal and pointer formatting (printf %#lx and %p) -/

/-- Hex digits of n, most significant first, with an explicit fuel argument
(fuel n is always enough since the value shrinks by a factor 16 each step). -/
def toHexAux : Nat → Nat → List Char
  | 0, _ => []
  | fuel + 1, n =>
    if n = 0 then [] else toHexAux fuel (n / 16) ++ [Nat.digitChar (n % 16)]

/-- Hex digits of n, most significant first; empty for n = 0. -/
def hexChars (n : Nat) : List Char := toHexAux n n

/-- Lowercase hexadecimal rendering of a positive number, no 0x prefix. -/
def hexStr (n : Nat) : String := String.mk (hexChars n)

/-- printf "%#lx": alternate-form hex; the # flag adds the 0x prefix only
for nonzero values, so 0 prints as "0". -/
def fmtHexAlt (n : Nat) : String :=
  if n = 0 then "0" else "0x" ++ hexStr n

/-- printf "%p" on a 32-bit glibc-style libc: 0x followed by lowercase hex
for a nonnull pointer, "(nil)" for the null pointer. -/
def fmtPtr (a : Nat) : String :=
  if a = 0 then "(nil)" else "0x" ++ hexStr a

/-- printf "%02d" for a non-negative frame index. -/
def fmt02 (i : Nat) : String :=
  if i < 10 then "0" ++ toString i else toString i

/-! ## Symbol formatter: backtrace_symbols -/

/-- WORD_WIDTH from backtrace.h: 8 on an ELF class 32 target. -/
def WORD_WIDTH : Nat := 8

/-- The fields of Dl_info used by backtrace_symbols.  dli_fname and
dli_sname are char pointers that may be null (none); dli_saddr is the
resolved symbol base address. -/
structure DlInfo where
  fname : Option String
  sname : Option String
  saddr : Nat
deriving DecidableEq

/-- One input address of backtrace_symbols together with the outcome of
its dladdr query: status is the (boolean) dladdr return value. -/
structure SymEntry where
  addr : Nat
  status : Bool
  info : DlInfo
deriving DecidableEq

/-- The C test "status[cnt] && info[cnt].dli_fname && info[cnt].dli_fname[0] != 0":
dladdr succeeded and gave a nonnull, nonempty module file name. -/
def hasInfo (e : SymEntry) : Bool :=
  e.status &&
    (match e.info.fname with
     | some f => !(f == "")
     | none => false)

/-- The offset part written into buf: "+%#lx" of array[cnt] - dli_saddr when
the address is at or after the symbol base, "-%#lx" of the reverse
difference otherwise. -/
def offsetBuf (addr saddr : Nat) : String :=
  if saddr ≤ addr then "+" ++ fmtHexAlt (addr - saddr)
  else "-" ++ fmtHexAlt (saddr - addr)

/-- The line sprintf'ed for one address, following
sprintf(last, "%s%s%s%s%s[%p]", fname, "(", sname, buf, ") ", addr)
with the conditional arguments of the C call. -/
def formatLine (e : SymEntry) : String :=
  if hasInfo e then
    match e.info.sname with
    | some sn =>
      e.info.fname.getD "" ++ "(" ++ sn ++ offsetBuf e.addr e.info.saddr
        ++ ") [" ++ fmtPtr e.addr ++ "]"
    | none => e.info.fname.getD "" ++ " [" ++ fmtPtr e.addr ++ "]"
  else "[" ++ fmtPtr e.addr ++ "]"

/-- The per-address contribution to total in the pre-sizing pass of
backtrace_symbols (the conservative upper bound on the line's bytes). -/
def sizeEstimate (e : SymEntry) : Nat :=
  if hasInfo e then
    (e.info.fname.getD "").length +
      (match e.info.sname with
       | some sn => sn.length + 3 + WORD_WIDTH + 3
       | none => 1) + WORD_WIDTH + 5
  else 5 + WORD_WIDTH

/-- Bytes consumed by one line in the write pass: the sprintf'ed characters
plus the terminating NUL (the C code advances last by 1 + sprintf(...)). -/
def lineBytes (e : SymEntry) : Nat := (formatLine e).length + 1

/-- The write pass of backtrace_symbols: writes one line per address into
the contiguous block, returning the lines in order together with the final
write cursor (a byte offset).  last starts right after the size pointer
slots and advances by 1 + sprintf(...) per line. -/
def writeLoop : List SymEntry → Nat → List String × Nat
  | [], last => ([], last)
  | e :: es, last =>
    let s := formatLine e
    let r := writeLoop es (last + s.length + 1)
    (s :: r.1, r.2)

/-- The total capacity computed by the pre-sizing loop of backtrace_symbols. -/
def totalCap (es : List SymEntry) : Nat := (es.map sizeEstimate).sum

/-- backtrace_symbols: none when the single malloc fails (the C function
returns NULL and writes nothing); otherwise the list of formatted lines,
one per input address, in input order. -/
def backtrace_symbols_model (es : List SymEntry) (allocOk : Bool) :
    Option (List String) :=
  if allocOk then some (writeLoop es 0).1 else none

/-- Well-formedness of one entry on the 32-bit target: the input address
and the resolved symbol base address are 32-bit pointers. -/
def entryWf (e : SymEntry) : Prop := e.addr < M32 ∧ e.info.saddr < M32

/-! ## Frame capture: backtrace_mips32 -/

/-- Result of one backward prologue scan of backtrace_mips32: found gives
the saved-ra stack offset and the frame size once both are known; sentinel
is the 0x3c1cXXXX (lui gp) pattern, on which the function returns depth+1. -/
inductive BwdResult where
  | found : Nat → Nat → BwdResult
  | sentinel : BwdResult
deriving DecidableEq

/-- One word-sized backward step of the scanning pointer (--addr on an
unsigned long pointer, with 32-bit wrap-around). -/
def bstep (a : Nat) : Nat := (a + (M32 - 4)) % M32

/-- The forward scan over backtrace_mips32's own code: starting at the
function entry, look for an addiu sp,sp,imm word (0x27bdXXXX) with nonzero
|imm| giving the frame size, or a jr ra word (0x03e00008) on which the C
loop breaks with stack_size still 0.  none means the loop has not
terminated within fuel iterations. -/
def fwdScan (mem : Nat → Nat) : Nat → Nat → Option Nat
  | 0, _ => none
  | fuel + 1, addr =>
    let w := read32 mem addr
    if w &&& 0xffff0000 = 0x27bd0000 then
      let s := (signext16 (w % 65536)).natAbs
      if s = 0 then fwdScan mem fuel (addr + 4) else some s
    else if w = 0x03e00008 then some 0
    else fwdScan mem fuel (addr + 4)

/-- The backward scan from a return address: the C loop runs while
ra_offset or stack_size is still 0, updating them on 0x27bdXXXX (frame
size) and 0xafbfXXXX (sw ra) words and returning immediately on the
0x3c1cXXXX sentinel.  none means the loop has not terminated within fuel
iterations. -/
def bwdScan (mem : Nat → Nat) : Nat → Nat → Nat → Nat → Option BwdResult
  | 0, _, _, _ => none
  | fuel + 1, addr, raOff, stackSize =>
    if raOff ≠ 0 ∧ stackSize ≠ 0 then some (BwdResult.found raOff stackSize)
    else
      let w := read32 mem addr
      if w &&& 0xffff0000 = 0x27bd0000 then
        bwdScan mem fuel (bstep addr) raOff (signext16 (w % 65536)).natAbs
      else if w &&& 0xffff0000 = 0xafbf0000 then
        bwdScan mem fuel (bstep addr) (toU32 (signext16 (w % 65536))) stackSize
      else if w &&& 0xffff0000 = 0x3c1c0000 then
        some BwdResult.sentinel
      else
        bwdScan mem fuel (bstep addr) raOff stackSize

/-- The outer frame loop of backtrace_mips32.  rem is the room left in the
caller's buffer (size - depth); acc the addresses stored so far.  Returns
the C return value together with the stored addresses, or none if some
backward scan does not finish within bfuel. -/
def btLoop (mem : Nat → Nat) (bfuel : Nat) :
    Nat → Nat → Nat → List Nat → Option (Nat × List Nat)
  | 0, _, _, acc => some (acc.length, acc)
  | rem + 1, ra, sp, acc =>
    if ra = 0 then some (acc.length, acc)
    else
      match bwdScan mem bfuel ra 0 0 with
      | none => none
      | some BwdResult.sentinel => some (acc.length + 1, acc ++ [ra])
      | some (BwdResult.found raOff stackSize) =>
        btLoop mem bfuel rem (read32 mem ((sp + raOff) % M32))
          ((sp + stackSize) % M32) (acc ++ [ra])

/-- backtrace_mips32.  mem is process memory; ra0 and sp0 the register
values read by the inline asm; selfAddr the function's own entry point
(start of the forward scan); size the caller's buffer capacity (a C int)
and bufPresent whether the buffer pointer is nonnull.  Returns the frame
count and the addresses stored into the buffer, or none if one of the
scans does not finish within its fuel. -/
def backtrace_mips32_model (mem : Nat → Nat) (ffuel bfuel : Nat)
    (ra0 sp0 selfAddr : Nat) (size : Int) (bufPresent : Bool) :
    Option (Nat × List Nat) :=
  if size ≤ 0 ∨ bufPresent = false then some (0, [])
  else
    match fwdScan mem ffuel selfAddr with
    | none => none
    | some stackSize => btLoop mem bfuel size.toNat ra0 ((sp0 + stackSize) % M32) []

/-- Termination of backtrace_mips32 on given inputs: some fuel makes both
the forward scan and every backward scan of the run finish. -/
def btmTerminates (mem : Nat → Nat) (ra0 sp0 selfAddr : Nat) (size : Int)
    (bufPresent : Bool) : Prop :=
  ∃ ffuel bfuel,
    backtrace_mips32_model mem ffuel bfuel ra0 sp0 selfAddr size bufPresent ≠ none

/-- A word on which the forward scan of backtrace_mips32 stops: a frame
setup instruction with nonzero frame size, or the jr ra return word. -/
def fwdHit (w : Nat) : Prop :=
  (w &&& 0xffff0000 = 0x27bd0000 ∧ (signext16 (w % 65536)).natAbs ≠ 0)
    ∨ w = 0x03e00008

/-- The sentinel word pattern of the backward scan (lui gp). -/
def isSentinel (w : Nat) : Prop := w &&& 0xffff0000 = 0x3c1c0000

/-! ## Reporter: print_stack_trace -/

/-- Builds the dladdr outcome for one address from a resolution oracle
(the process's loaded-module table). -/
def mkSymEntry (oracle : Nat → Bool × DlInfo) (a : Nat) : SymEntry :=
  ⟨a, (oracle a).1, (oracle a).2⟩

/-- print_stack_trace, as the list of (level, message) pairs it hands to
the logging collaborator: the header line, then one line per captured
frame, using the backtrace_symbols line when the allocation succeeded and
the bare %p-formatted address otherwise.  frames is the output of
backtrace_mips32 (machine state dependent, so a parameter here); oracle is
the dladdr resolution; allocOk the outcome of the formatter's malloc. -/
def print_stack_trace_model (oracle : Nat → Bool × DlInfo) (frames : List Nat)
    (allocOk : Bool) (lvl : Nat) : List (Nat × String) :=
  let header : Nat × String :=
    (lvl, "Stack trace: " ++ toString frames.length
      ++ " frames (most recent call first)")
  match backtrace_symbols_model (frames.map (mkSymEntry oracle)) allocOk with
  | none =>
    header :: (frames.enum.map fun p =>
      (lvl, "\t#" ++ fmt02 p.1 ++ " " ++ fmtPtr p.2))
  | some lines =>
    header :: (lines.enum.map fun p =>
      (lvl, "\t#" ++ fmt02 p.1 ++ " " ++ p.2))

/-! ## Logger: log_log -/

/-- The log_sink_t enumeration of log.h. -/
inductive LogSink where
  | unspecified
  | file
  | syslog
deriving DecidableEq

/-- The static Config record of the logger (log.c).  The FILE pointer is
kept only as present/absent; LOG_DISABLED is mask value 0. -/
structure LogConfig where
  ident : String
  levelMask : Nat
  fileHandle : Option Unit
  sink : LogSink
deriving DecidableEq

/-- One message emitted to a sink by log_log. -/
structure LogMsg where
  sink : LogSink
  level : Nat
  file : String
  line : Nat
  text : String
deriving DecidableEq

/-- log_log: checks the configuration under the lock and either discards
the message or emits it to the configured sink.  Returns the (unchanged)
configuration and the list of messages written. -/
def log_log_model (cfg : LogConfig) (level : Nat) (file : String) (line : Nat)
    (text : String) : LogConfig × List LogMsg :=
  if cfg.sink = LogSink.unspecified ∨ cfg.levelMask = 0
      ∨ cfg.levelMask &&& level = 0 then
    (cfg, [])
  else if cfg.sink = LogSink.file ∧ cfg.fileHandle = none then
    (cfg, [])
  else
    match cfg.sink with
    | LogSink.file => (cfg, [⟨LogSink.file, level, file, line, text⟩])
    | LogSink.syslog => (cfg, [⟨LogSink.syslog, level, file, line, text⟩])
    | LogSink.unspecified => (cfg, [])

/-! ## Timespec arithmetic: measure_diff and timespec_to_ms -/

/-- struct timespec with mathematical-integer fields. -/
structure Timespec where
  tv_sec : Int
  tv_nsec : Int
deriving DecidableEq

/-- measure_diff from measure.c: componentwise difference with one borrow
normalization step on a negative nanosecond part. -/
def measure_diff (s e : Timespec) : Timespec :=
  let sec := e.tv_sec - s.tv_sec
  let nsec := e.tv_nsec - s.tv_nsec
  if nsec < 0 then ⟨sec - 1, nsec + 1000000000⟩ else ⟨sec, nsec⟩

/-- The time point denoted by a timespec, in nanoseconds. -/
def toNanos (t : Timespec) : Int := t.tv_sec * 1000000000 + t.tv_nsec

/-- A normalized timespec: nanosecond component in [0, 10^9). -/
def tsNormalized (t : Timespec) : Prop :=
  0 ≤ t.tv_nsec ∧ t.tv_nsec < 1000000000

/-- timespec_to_ms from timer.c. -/
def timespec_to_ms (t : Timespec) : Int :=
  t.tv_sec * 1000 + t.tv_nsec / 1000000

/-! ## Decidability instances for the well-formedness predicates -/

instance entryWf_decidable : DecidablePred entryWf := fun e => by
  unfold entryWf; infer_instance

/-! ## Concrete memories used as test inputs -/

/-- Memory whose every word is zero: no instruction pattern anywhere. -/
def zeroMem : Nat → Nat := fun _ => 0

/-- Memory with a jr ra word at the capture function's entry 4096 and the
sentinel pattern everywhere else. -/
def memW : Nat → Nat := fun a => if a = 4096 then 0x03e00008 else 0x3c1c0000

/-- A concrete address array for the capacity witness: one fully resolved
entry, one resolved without symbol name, one unresolved. -/
def esW : List SymEntry :=
  [⟨0x44afcc, true, ⟨some "./driver_manager", some "main", 0x44a000⟩⟩,
   ⟨0x2ac7b4d4, true, ⟨some "/lib/libc.so.0", none, 0⟩⟩,
   ⟨0x405004, false, ⟨none, none, 0⟩⟩]

/-! ## Helper lemmas: hex rendering lengths -/

theorem toHexAux_length_le (fuel : Nat) :
    ∀ n k, n ≤ fuel → n < 16 ^ k → (toHexAux fuel n).length ≤ k := by
  induction fuel with
  | zero =>
    intro n k hf _
    interval_cases n
    simp [toHexAux]
  | succ fuel ih =>
    intro n k hf hk
    by_cases hn : n = 0
    · simp [toHexAux, hn]
    · cases k with
      | zero =>
        exfalso
        have : n < 1 := by simpa using hk
        omega
      | succ k =>
        have hdiv : n / 16 ≤ fuel := by
          have : n / 16 < n := Nat.div_lt_self (Nat.pos_of_ne_zero hn) (by omega)
          omega
        have hdk : n / 16 < 16 ^ k := by
          rw [Nat.div_lt_iff_lt_mul (by omega)]
          calc n < 16 ^ (k + 1) := hk
            _ = 16 ^ k * 16 := by ring
        have := ih (n / 16) k hdiv hdk
        simp only [toHexAux, if_neg hn, List.length_append, List.length_cons,
          List.length_nil]
        omega

theorem hexStr_length_le (n k : Nat) (h : n < 16 ^ k) : (hexStr n).length ≤ k := by
  have : (hexStr n).length = (hexChars n).length := rfl
  rw [this]
  exact toHexAux_length_le n n k (le_refl n) h

theorem M32_eq_pow : M32 = 16 ^ 8 := by norm_num [M32]

theorem fmtPtr_length_le (a : Nat) (h : a < M32) : (fmtPtr a).length ≤ 10 := by
  unfold fmtPtr
  split
  · decide
  · rw [String.length_append]
    have : (hexStr a).length ≤ 8 := hexStr_length_le a 8 (M32_eq_pow ▸ h)
    have h2 : ("0x" : String).length = 2 := rfl
    omega

theorem fmtHexAlt_length_le (n : Nat) (h : n < M32) : (fmtHexAlt n).length ≤ 10 := by
  unfold fmtHexAlt
  split
  · decide
  · rw [String.length_append]
    have : (hexStr n).length ≤ 8 := hexStr_length_le n 8 (M32_eq_pow ▸ h)
    have h2 : ("0x" : String).length = 2 := rfl
    omega

theorem offsetBuf_length_le (addr saddr : Nat) (ha : addr < M32)
    (hs : saddr < M32) : (offsetBuf addr saddr).length ≤ 11 := by
  unfold offsetBuf
  have h1 : ("+" : String).length = 1 := rfl
  have h2 : ("-" : String).length = 1 := rfl
  split
  · rw [String.length_append]
    have : (fmtHexAlt (addr - saddr)).length ≤ 10 :=
      fmtHexAlt_length_le _ (lt_of_le_of_lt (Nat.sub_le _ _) ha)
    omega
  · rw [String.length_append]
    have : (fmtHexAlt (saddr - addr)).length ≤ 10 :=
      fmtHexAlt_length_le _ (lt_of_le_of_lt (Nat.sub_le _ _) hs)
    omega

/-! ## Helper lemmas: the write pass against the pre-sizing pass -/

theorem lineBytes_le_sizeEstimate (e : SymEntry) (h : entryWf e) :
    lineBytes e ≤ sizeEstimate e := by
  obtain ⟨ha, hs⟩ := h
  have hob := offsetBuf_length_le e.addr e.info.saddr ha hs
  have hp := fmtPtr_length_le e.addr ha
  have l1 : ("(" : String).length = 1 := rfl
  have l2 : (") [" : String).length = 3 := rfl
  have l3 : ("]" : String).length = 1 := rfl
  have l4 : (" [" : String).length = 2 := rfl
  have l5 : ("[" : String).length = 1 := rfl
  unfold lineBytes formatLine sizeEstimate
  cases hInfo : hasInfo e with
  | false =>
    simp only [hInfo, Bool.false_eq_true, if_false, String.length_append,
      WORD_WIDTH]
    omega
  | true =>
    simp only [hInfo, if_true]
    cases hsn : e.info.sname with
    | none =>
      simp only [String.length_append, WORD_WIDTH]
      omega
    | some sn =>
      simp only [String.length_append, WORD_WIDTH]
      omega

theorem writeLoop_eq (es : List SymEntry) :
    ∀ l, writeLoop es l = (es.map formatLine, l + (es.map lineBytes).sum) := by
  induction es with
  | nil => intro l; simp [writeLoop]
  | cons e es ih =>
    intro l
    simp only [writeLoop, ih, List.map_cons, List.sum_cons, lineBytes]
    refine Prod.ext rfl ?_
    simp
    omega

/-! ## Helper lemmas: merging string literals across association -/

theorem append_lit_merge (a b c : String) (h : a ++ b = c) (s : String) :
    a ++ (b ++ s) = c ++ s := by
  rw [← String.append_assoc, h]

theorem plus_0x_merge (s : String) : "+" ++ ("0x" ++ s) = "+0x" ++ s :=
  append_lit_merge "+" "0x" "+0x" rfl s

theorem minus_0x_merge (s : String) : "-" ++ ("0x" ++ s) = "-0x" ++ s :=
  append_lit_merge "-" "0x" "-0x" rfl s

theorem plus_0_merge (s : String) : "+" ++ ("0" ++ s) = "+0" ++ s :=
  append_lit_merge "+" "0" "+0" rfl s

/-! ## Claim C1 -/

/-- C1: for every input address array and every outcome of symbol
resolution (with 32-bit addresses, as on the MIPS32 target), the write
pass of backtrace_symbols never exceeds the pre-computed capacity: the
final write cursor, starting right after the size pointer slots (byte
offset size * sizeof(char *) = 4 * length), stays at or below
4 * length + total, which is the assert after the write loop. -/
theorem backtrace_symbols_write_within_capacity (es : List SymEntry)
    (h : ∀ e ∈ es, entryWf e) :
    (writeLoop es (4 * es.length)).2 ≤ 4 * es.length + totalCap es := by
  rw [writeLoop_eq]
  have hsum : (es.map lineBytes).sum ≤ (es.map sizeEstimate).sum :=
    List.sum_le_sum (fun e he => lineBytes_le_sizeEstimate e (h e he))
  simp only [totalCap]
  omega

/-- Witness for C1 at a concrete address array: one fully resolved entry,
one resolved without symbol name, one unresolved. -/
theorem backtrace_symbols_write_within_capacity_witness :
    (∀ e ∈ esW, entryWf e)
    ∧ (writeLoop esW (4 * esW.length)).2 ≤ 4 * esW.length + totalCap esW :=
  ⟨by decide, backtrace_symbols_write_within_capacity esW (by decide)⟩

/-! ## Claim C8 -/

/-- C8: whenever the allocation succeeds, backtrace_symbols produces
exactly one line per input address, in input order: the result has the
same length as the input and its i-th line is the formatting of the i-th
address. -/
theorem backtrace_symbols_preserves_length_and_order (es : List SymEntry) :
    ∃ lines, backtrace_symbols_model es true = some lines
      ∧ lines.length = es.length
      ∧ ∀ i : Nat, lines[i]? = (es[i]?).map formatLine := by
  refine ⟨es.map formatLine, ?_, by simp, fun i => List.getElem?_map formatLine es i⟩
  simp [backtrace_symbols_model, writeLoop_eq]

/-! ## Claim C6 -/

/-- C6: each formatted line takes exactly one of three forms: module and
symbol resolved gives path(name, signed hex offset) and bracketed address;
module without symbol name gives path, space, bracketed address; nothing
resolvable gives exactly the bracketed address. -/
theorem backtrace_symbols_line_forms (e : SymEntry) :
    (hasInfo e = true ∧ ∃ sn, e.info.sname = some sn
      ∧ (offsetBuf e.addr e.info.saddr = "+" ++ fmtHexAlt (e.addr - e.info.saddr)
         ∨ offsetBuf e.addr e.info.saddr = "-" ++ fmtHexAlt (e.info.saddr - e.addr))
      ∧ formatLine e = e.info.fname.getD "" ++ "(" ++ sn
          ++ offsetBuf e.addr e.info.saddr ++ ") [" ++ fmtPtr e.addr ++ "]")
    ∨ (hasInfo e = true ∧ e.info.sname = none
      ∧ formatLine e = e.info.fname.getD "" ++ " [" ++ fmtPtr e.addr ++ "]")
    ∨ (hasInfo e = false ∧ formatLine e = "[" ++ fmtPtr e.addr ++ "]") := by
  cases hInfo : hasInfo e with
  | false =>
    right; right
    exact ⟨rfl, by simp [formatLine, hInfo]⟩
  | true =>
    cases hsn : e.info.sname with
    | none =>
      right; left
      refine ⟨rfl, rfl, ?_⟩
      simp [formatLine, hInfo, hsn]
    | some sn =>
      left
      refine ⟨rfl, sn, rfl, ?_, ?_⟩
      · unfold offsetBuf
        split
        · exact Or.inl rfl
        · exact Or.inr rfl
      · simp [formatLine, hInfo, hsn]

/-! ## Claim C5 -/

/-- C5: for a resolved symbol, the offset is the absolute byte difference
to the symbol base, formatted +0x in lowercase hex for an address k > 0
bytes after the base, -0x for an address before the base, and the
zero-offset form "+0" (printf %#lx prints 0 without the 0x prefix) for an
address at the exact base. -/
theorem backtrace_symbols_offset_sign (fn sn : String) (saddr k : Nat)
    (hfn : fn ≠ "") (hk : 0 < k) (hks : k ≤ saddr) :
    formatLine ⟨saddr + k, true, ⟨some fn, some sn, saddr⟩⟩
      = fn ++ "(" ++ sn ++ "+0x" ++ hexStr k ++ ") [" ++ fmtPtr (saddr + k) ++ "]"
    ∧ formatLine ⟨saddr, true, ⟨some fn, some sn, saddr⟩⟩
      = fn ++ "(" ++ sn ++ "+0" ++ ") [" ++ fmtPtr saddr ++ "]"
    ∧ formatLine ⟨saddr - k, true, ⟨some fn, some sn, saddr⟩⟩
      = fn ++ "(" ++ sn ++ "-0x" ++ hexStr k ++ ") [" ++ fmtPtr (saddr - k) ++ "]" := by
  have hInfo : ∀ a : Nat, hasInfo ⟨a, true, ⟨some fn, some sn, saddr⟩⟩ = true := by
    intro a
    simp [hasInfo, hfn]
  refine ⟨?_, ?_, ?_⟩
  · have hle : saddr ≤ saddr + k := Nat.le_add_right _ _
    have hsub : saddr + k - saddr = k := by omega
    simp only [formatLine, hInfo, if_true, offsetBuf, if_pos hle, hsub,
      fmtHexAlt, if_neg (Nat.pos_iff_ne_zero.mp hk), String.append_assoc,
      plus_0x_merge, Option.getD_some]
  · have hsub : saddr - saddr = 0 := by omega
    simp only [formatLine, hInfo, if_true, offsetBuf, if_pos (le_refl saddr),
      hsub, fmtHexAlt, if_pos rfl, String.append_assoc, plus_0_merge,
      Option.getD_some]
  · have hlt : ¬ saddr ≤ saddr - k := by omega
    have hsub : saddr - (saddr - k) = k := by omega
    simp only [formatLine, hInfo, if_true, offsetBuf, if_neg hlt, hsub,
      fmtHexAlt, if_neg (Nat.pos_iff_ne_zero.mp hk), String.append_assoc,
      minus_0x_merge, Option.getD_some]

/-- Witness for C5: symbol main at base 0x44a000, offsets of 0x3c bytes. -/
theorem backtrace_symbols_offset_sign_witness :
    ("./driver_manager" : String) ≠ "" ∧ 0 < 60 ∧ 60 ≤ 0x44a000
    ∧ (formatLine ⟨0x44a000 + 60, true, ⟨some "./driver_manager", some "main", 0x44a000⟩⟩
        = "./driver_manager" ++ "(" ++ "main" ++ "+0x" ++ hexStr 60 ++ ") ["
          ++ fmtPtr (0x44a000 + 60) ++ "]"
      ∧ formatLine ⟨0x44a000, true, ⟨some "./driver_manager", some "main", 0x44a000⟩⟩
        = "./driver_manager" ++ "(" ++ "main" ++ "+0" ++ ") ["
          ++ fmtPtr 0x44a000 ++ "]"
      ∧ formatLine ⟨0x44a000 - 60, true, ⟨some "./driver_manager", some "main", 0x44a000⟩⟩
        = "./driver_manager" ++ "(" ++ "main" ++ "-0x" ++ hexStr 60 ++ ") ["
          ++ fmtPtr (0x44a000 - 60) ++ "]") :=
  ⟨by decide, by decide, by decide,
   backtrace_symbols_offset_sign "./driver_manager" "main" 0x44a000 60
     (by decide) (by decide) (by decide)⟩

/-! ## Claim C4 -/

/-- C4: if the one allocation in backtrace_symbols fails, the function
returns the failure signal (none: NULL, no partial output), and
print_stack_trace still emits the header plus one line per frame showing
the bare address rendered by fmtPtr, which is exactly the address
formatting of the formatter's last-resort case (an entry whose dladdr
query failed formats as the bracketed fmtPtr output); nothing else is
emitted and no failure propagates. -/
theorem print_stack_trace_alloc_failure_fallback (oracle : Nat → Bool × DlInfo)
    (frames : List Nat) (lvl : Nat) :
    backtrace_symbols_model (frames.map (mkSymEntry oracle)) false = none
    ∧ print_stack_trace_model oracle frames false lvl =
        (lvl, "Stack trace: " ++ toString frames.length
          ++ " frames (most recent call first)")
        :: (frames.enum.map fun p => (lvl, "\t#" ++ fmt02 p.1 ++ " " ++ fmtPtr p.2))
    ∧ ∀ a info, formatLine ⟨a, false, info⟩ = "[" ++ fmtPtr a ++ "]" := by
  refine ⟨rfl, rfl, ?_⟩
  intro a info
  simp [formatLine, hasInfo]

/-! ## Helper lemmas: the outer frame loop is bounded by the buffer size -/

theorem btLoop_some_bound (mem : Nat → Nat) (bfuel : Nat) :
    ∀ rem ra sp acc n fr, btLoop mem bfuel rem ra sp acc = some (n, fr) →
      n = fr.length ∧ fr.length ≤ acc.length + rem := by
  intro rem
  induction rem with
  | zero =>
    intro ra sp acc n fr h
    simp only [btLoop, Option.some_inj] at h
    obtain ⟨hn, hfr⟩ := Prod.mk.injEq .. ▸ h
    subst hfr
    omega
  | succ rem ih =>
    intro ra sp acc n fr h
    rw [btLoop] at h
    by_cases hra : ra = 0
    · rw [if_pos hra, Option.some_inj] at h
      obtain ⟨hn, hfr⟩ := Prod.mk.injEq .. ▸ h
      subst hfr
      omega
    · rw [if_neg hra] at h
      cases hbs : bwdScan mem bfuel ra 0 0 with
      | none => rw [hbs] at h; exact absurd h (by simp)
      | some r =>
        rw [hbs] at h
        cases r with
        | sentinel =>
          simp only [Option.some_inj] at h
          obtain ⟨hn, hfr⟩ := Prod.mk.injEq .. ▸ h
          subst hfr
          simp only [List.length_append, List.length_cons, List.length_nil]
          omega
        | found raOff stackSize =>
          have := ih _ _ _ _ _ h
          simp only [List.length_append, List.length_cons, List.length_nil] at this
          omega

/-! ## Claim C2 -/

/-- C2: for every memory, register state, buffer and size, when
backtrace_mips32 terminates it returns a frame count n equal to the number
of addresses stored, with 0 <= n <= max(size, 0); in particular the early
sentinel return of depth + 1 also stays within the size bound. -/
theorem backtrace_mips32_frame_count_bounded (mem : Nat → Nat)
    (ffuel bfuel ra0 sp0 selfAddr : Nat) (size : Int) (bufPresent : Bool)
    (n : Nat) (fr : List Nat)
    (h : backtrace_mips32_model mem ffuel bfuel ra0 sp0 selfAddr size bufPresent
      = some (n, fr)) :
    n = fr.length ∧ 0 ≤ (n : Int) ∧ (n : Int) ≤ max size 0
      ∧ (fr.length : Int) ≤ max size 0 := by
  rw [backtrace_mips32_model] at h
  by_cases h0 : size ≤ 0 ∨ bufPresent = false
  · rw [if_pos h0, Option.some_inj] at h
    obtain ⟨hn, hfr⟩ := Prod.mk.injEq .. ▸ h
    subst hfr
    subst hn
    refine ⟨rfl, by simp, by simp, by simp⟩
  · rw [if_neg h0] at h
    cases hfs : fwdScan mem ffuel selfAddr with
    | none => rw [hfs] at h; exact absurd h (by simp)
    | some stackSize =>
      rw [hfs] at h
      have hb := btLoop_some_bound mem bfuel size.toNat ra0
        ((sp0 + stackSize) % M32) [] n fr h
      have hsz : ¬ size ≤ 0 := fun hs => h0 (Or.inl hs)
      obtain ⟨hn, hlen⟩ := hb
      simp only [List.length_nil, Nat.zero_add] at hlen
      refine ⟨hn, by positivity, ?_, ?_⟩ <;> omega

/-- Witness for C2: a concrete memory in which the capture finds the
sentinel immediately and stops after one frame, within the size bound 4. -/
theorem backtrace_mips32_frame_count_bounded_witness :
    backtrace_mips32_model memW 1 2 8192 12288 4096 4 true = some (1, [8192])
    ∧ (1 = ([8192] : List Nat).length ∧ 0 ≤ ((1 : Nat) : Int)
        ∧ ((1 : Nat) : Int) ≤ max 4 0
        ∧ ((([8192] : List Nat).length : Nat) : Int) ≤ max 4 0) :=
  ⟨by decide,
   backtrace_mips32_frame_count_bounded memW 1 2 8192 12288 4096 4 true
     1 [8192] (by decide)⟩

/-! ## Claim C7 -/

/-- C7: a call with non-positive size or an absent buffer returns zero
frames and stores nothing (an empty successful capture, not an error). -/
theorem backtrace_mips32_empty_on_nonpositive_size (mem : Nat → Nat)
    (ffuel bfuel ra0 sp0 selfAddr : Nat) (size : Int) (bufPresent : Bool)
    (h : size ≤ 0 ∨ bufPresent = false) :
    backtrace_mips32_model mem ffuel bfuel ra0 sp0 selfAddr size bufPresent
      = some (0, []) := by
  rw [backtrace_mips32_model, if_pos h]

/-- Witness for C7 at size -3 with a present buffer. -/
theorem backtrace_mips32_empty_on_nonpositive_size_witness :
    ((-3 : Int) ≤ 0 ∨ true = false)
    ∧ backtrace_mips32_model zeroMem 5 5 8192 12288 4096 (-3) true
      = some (0, []) :=
  ⟨by decide,
   backtrace_mips32_empty_on_nonpositive_size zeroMem 5 5 8192 12288 4096 (-3)
     true (by decide)⟩

/-! ## Helper lemmas: scan termination and divergence -/

theorem fwdScan_zeroMem (fuel : Nat) :
    ∀ addr, fwdScan zeroMem fuel addr = none := by
  induction fuel with
  | zero => intro addr; rfl
  | succ fuel ih =>
    intro addr
    have hr : read32 zeroMem addr = 0 := rfl
    rw [fwdScan]
    simp only [hr]
    norm_num
    exact ih (addr + 4)

theorem fwdScan_of_hit (mem : Nat → Nat) :
    ∀ k addr, fwdHit (read32 mem (addr + 4 * k)) →
      fwdScan mem (k + 1) addr ≠ none := by
  intro k
  induction k with
  | zero =>
    intro addr hhit
    simp only [Nat.mul_zero, Nat.add_zero] at hhit
    rw [fwdScan]
    by_cases hc : read32 mem addr &&& 0xffff0000 = 0x27bd0000
    · have hs : (signext16 (read32 mem addr % 65536)).natAbs ≠ 0 := by
        rcases hhit with ⟨_, hs⟩ | hw
        · exact hs
        · rw [hw] at hc
          exact absurd hc (by decide)
      simp only [hc, if_true, if_neg hs]
      exact Option.some_ne_none _
    · have hw : read32 mem addr = 0x03e00008 := by
        rcases hhit with ⟨hc1, _⟩ | hw
        · exact absurd hc1 hc
        · exact hw
      simp only [hc, if_false, hw, if_pos rfl]
      exact Option.some_ne_none _
  | succ k ih =>
    intro addr hhit
    have hpos : addr + 4 * (k + 1) = (addr + 4) + 4 * k := by ring
    rw [hpos] at hhit
    rw [fwdScan]
    by_cases hc : read32 mem addr &&& 0xffff0000 = 0x27bd0000
    · by_cases hs : (signext16 (read32 mem addr % 65536)).natAbs = 0
      · simp only [hc, if_true, hs, if_pos rfl]
        exact ih (addr + 4) hhit
      · simp only [hc, if_true, if_neg hs]
        exact Option.some_ne_none _
    · by_cases hw : read32 mem addr = 0x03e00008
      · simp only [hc, if_false, hw, if_pos rfl]
        exact Option.some_ne_none _
      · simp only [hc, if_false, hw]
        exact ih (addr + 4) hhit

theorem fwdScan_mono_ne (mem : Nat → Nat) :
    ∀ f g addr, f ≤ g → fwdScan mem f addr ≠ none →
      fwdScan mem g addr ≠ none := by
  intro f
  induction f with
  | zero => intro g addr _ h; exact absurd rfl h
  | succ f ih =>
    intro g addr hfg h
    cases g with
    | zero => omega
    | succ g =>
      rw [fwdScan] at h ⊢
      by_cases hc : read32 mem addr &&& 0xffff0000 = 0x27bd0000
      · by_cases hs : (signext16 (read32 mem addr % 65536)).natAbs = 0
        · simp only [hc, if_true, hs, if_pos rfl] at h ⊢
          exact ih g (addr + 4) (by omega) h
        · simp only [hc, if_true, if_neg hs]
          exact Option.some_ne_none _
      · by_cases hw : read32 mem addr = 0x03e00008
        · simp only [hc, if_false, hw, if_pos rfl]
          exact Option.some_ne_none _
        · simp only [hc, if_false, hw] at h ⊢
          exact ih g (addr + 4) (by omega) h

theorem bwdScan_of_sentinel (mem : Nat → Nat) :
    ∀ k addr raOff stackSize, isSentinel (read32 mem (bstep^[k] addr)) →
      bwdScan mem (k + 1) addr raOff stackSize ≠ none := by
  intro k
  induction k with
  | zero =>
    intro addr raOff stackSize hsent
    simp only [Function.iterate_zero_apply] at hsent
    rw [bwdScan]
    by_cases hex : raOff ≠ 0 ∧ stackSize ≠ 0
    · rw [if_pos hex]; exact Option.some_ne_none _
    · rw [if_neg hex]
      have hs3 : read32 mem addr &&& 0xffff0000 = 0x3c1c0000 := hsent
      have hc1 : ¬ read32 mem addr &&& 0xffff0000 = 0x27bd0000 := by
        rw [hs3]; decide
      have hc2 : ¬ read32 mem addr &&& 0xffff0000 = 0xafbf0000 := by
        rw [hs3]; decide
      simp only [hc1, if_false, hc2, hs3]
      simp
  | succ k ih =>
    intro addr raOff stackSize hsent
    rw [Function.iterate_succ_apply] at hsent
    rw [bwdScan]
    by_cases hex : raOff ≠ 0 ∧ stackSize ≠ 0
    · rw [if_pos hex]; exact Option.some_ne_none _
    · rw [if_neg hex]
      by_cases hc1 : read32 mem addr &&& 0xffff0000 = 0x27bd0000
      · simp only [hc1, if_pos rfl]
        exact ih (bstep addr) _ _ hsent
      · by_cases hc2 : read32 mem addr &&& 0xffff0000 = 0xafbf0000
        · simp only [hc1, if_false, hc2, if_pos rfl]
          exact ih (bstep addr) _ _ hsent
        · by_cases hc3 : read32 mem addr &&& 0xffff0000 = 0x3c1c0000
          · simp only [hc1, if_false, hc2, hc3, if_pos rfl]
            exact Option.some_ne_none _
          · simp only [hc1, if_false, hc2, hc3]
            exact ih (bstep addr) _ _ hsent

theorem bwdScan_mono_ne (mem : Nat → Nat) :
    ∀ f g addr raOff stackSize, f ≤ g →
      bwdScan mem f addr raOff stackSize ≠ none →
      bwdScan mem g addr raOff stackSize ≠ none := by
  intro f
  induction f with
  | zero => intro g addr raOff stackSize _ h; exact absurd rfl h
  | succ f ih =>
    intro g addr raOff stackSize hfg h
    cases g with
    | zero => omega
    | succ g =>
      rw [bwdScan] at h ⊢
      by_cases hex : raOff ≠ 0 ∧ stackSize ≠ 0
      · rw [if_pos hex]; exact Option.some_ne_none _
      · rw [if_neg hex] at h ⊢
        by_cases hc1 : read32 mem addr &&& 0xffff0000 = 0x27bd0000
        · simp only [hc1, if_pos rfl] at h ⊢
          exact ih g _ _ _ (by omega) h
        · by_cases hc2 : read32 mem addr &&& 0xffff0000 = 0xafbf0000
          · simp only [hc1, if_false, hc2, if_pos rfl] at h ⊢
            exact ih g _ _ _ (by omega) h
          · by_cases hc3 : read32 mem addr &&& 0xffff0000 = 0x3c1c0000
            · simp only [hc1, if_false, hc2, hc3, if_pos rfl]
              exact Option.some_ne_none _
            · simp only [hc1, if_false, hc2, hc3] at h ⊢
              exact ih g _ _ _ (by omega) h

theorem btLoop_total (mem : Nat → Nat) (Kb : Nat)
    (Hb : ∀ a, ∃ k ≤ Kb, isSentinel (read32 mem (bstep^[k] a))) :
    ∀ rem ra sp acc, btLoop mem (Kb + 1) rem ra sp acc ≠ none := by
  intro rem
  induction rem with
  | zero => intro ra sp acc; simp [btLoop]
  | succ rem ih =>
    intro ra sp acc
    rw [btLoop]
    by_cases hra : ra = 0
    · rw [if_pos hra]; exact Option.some_ne_none _
    · rw [if_neg hra]
      have hbs : bwdScan mem (Kb + 1) ra 0 0 ≠ none := by
        obtain ⟨k, hk, hs⟩ := Hb ra
        exact bwdScan_mono_ne mem (k + 1) (Kb + 1) ra 0 0 (by omega)
          (bwdScan_of_sentinel mem k ra 0 0 hs)
      cases hv : bwdScan mem (Kb + 1) ra 0 0 with
      | none => exact absurd hv hbs
      | some r =>
        cases r with
        | sentinel => exact Option.some_ne_none _
        | found raOff stackSize => exact ih _ _ _

/-! ## Claim C3: counterexample, amended theorem and witness -/

/-- C3 counterexample: backtrace_mips32 does not always terminate.  On
memory whose words are all zero, the initial forward scan never meets a
frame-setup or return instruction, so no amount of fuel completes the
capture: the C loop runs forever. -/
theorem backtrace_mips32_nonterminating_on_zero_memory :
    ¬ btmTerminates zeroMem 8192 12288 4096 4 true := by
  rintro ⟨ffuel, bfuel, h⟩
  apply h
  rw [backtrace_mips32_model, if_neg (by norm_num), fwdScan_zeroMem]

/-- C3 amended: backtrace_mips32 terminates provided the scanned code
contains the patterns the scans look for: if the forward scan region
holds a frame-size or return instruction within Kf words of the entry,
and from every address the backward scan meets the sentinel within Kb
words, then the capture completes (the outer loop being bounded by size),
ending by collecting the size bound, hitting a null return address, or
the sentinel early return. -/
theorem backtrace_mips32_terminates_with_patterns (mem : Nat → Nat)
    (Kf Kb ra0 sp0 selfAddr : Nat) (size : Int) (bufPresent : Bool)
    (Hf : ∃ k ≤ Kf, fwdHit (read32 mem (selfAddr + 4 * k)))
    (Hb : ∀ a, ∃ k ≤ Kb, isSentinel (read32 mem (bstep^[k] a))) :
    ∃ p, backtrace_mips32_model mem (Kf + 1) (Kb + 1) ra0 sp0 selfAddr size
      bufPresent = some p := by
  rw [backtrace_mips32_model]
  by_cases h0 : size ≤ 0 ∨ bufPresent = false
  · rw [if_pos h0]
    exact ⟨(0, []), rfl⟩
  · rw [if_neg h0]
    have hf : fwdScan mem (Kf + 1) selfAddr ≠ none := by
      obtain ⟨k, hk, hhit⟩ := Hf
      exact fwdScan_mono_ne mem (k + 1) (Kf + 1) selfAddr (by omega)
        (fwdScan_of_hit mem k selfAddr hhit)
    cases hfs : fwdScan mem (Kf + 1) selfAddr with
    | none => exact absurd hfs hf
    | some stackSize =>
      have hbt := btLoop_total mem Kb Hb size.toNat ra0
        ((sp0 + stackSize) % M32) []
      cases hbv : btLoop mem (Kb + 1) size.toNat ra0
          ((sp0 + stackSize) % M32) [] with
      | none => exact absurd hbv hbt
      | some p => exact ⟨p, hbv⟩

/-- Witness for the amended C3: memory with a return instruction at the
function entry and the sentinel pattern everywhere else terminates. -/
theorem backtrace_mips32_terminates_with_patterns_witness :
    (∃ k ≤ 0, fwdHit (read32 memW (4096 + 4 * k)))
    ∧ (∀ a, ∃ k ≤ 1, isSentinel (read32 memW (bstep^[k] a)))
    ∧ ∃ p, backtrace_mips32_model memW 1 2 8192 12288 4096 4 true = some p := by
  have hf : ∃ k ≤ 0, fwdHit (read32 memW (4096 + 4 * k)) :=
    ⟨0, le_refl 0, Or.inr (by decide)⟩
  have hb : ∀ a, ∃ k ≤ 1, isSentinel (read32 memW (bstep^[k] a)) := by
    intro a
    by_cases h : a = 4096
    · refine ⟨1, le_refl 1, ?_⟩
      subst h
      show read32 memW (bstep^[1] 4096) &&& 0xffff0000 = 0x3c1c0000
      decide
    · refine ⟨0, Nat.zero_le 1, ?_⟩
      show read32 memW (bstep^[0] a) &&& 0xffff0000 = 0x3c1c0000
      simp only [Function.iterate_zero_apply]
      unfold read32 memW
      rw [if_neg h]
      decide
  exact ⟨hf, hb,
    backtrace_mips32_terminates_with_patterns memW 0 1 8192 12288 4096 4 true
      hf hb⟩

/-! ## Claim C9 -/

/-- C9: if the logger is unconfigured (sink unspecified) or disabled (the
level mask is LOG_DISABLED = 0, or the message's level bit is not set in
the mask), log_log silently discards the message: it emits nothing to any
sink and leaves the configuration unchanged. -/
theorem log_log_discards_when_disabled (cfg : LogConfig) (level : Nat)
    (file : String) (line : Nat) (text : String)
    (h : cfg.sink = LogSink.unspecified ∨ cfg.levelMask = 0
      ∨ cfg.levelMask &&& level = 0) :
    log_log_model cfg level file line text = (cfg, []) := by
  rw [log_log_model, if_pos h]

/-- Witness for C9: a file-sink configuration whose mask 12 (WARN|ERROR)
does not contain the DEBUG bit 1 of the message. -/
theorem log_log_discards_when_disabled_witness :
    ((⟨"dm", 12, some (), LogSink.file⟩ : LogConfig).sink = LogSink.unspecified
      ∨ (⟨"dm", 12, some (), LogSink.file⟩ : LogConfig).levelMask = 0
      ∨ (⟨"dm", 12, some (), LogSink.file⟩ : LogConfig).levelMask &&& 1 = 0)
    ∧ log_log_model ⟨"dm", 12, some (), LogSink.file⟩ 1 "measure.c" 59 "msg"
      = (⟨"dm", 12, some (), LogSink.file⟩, []) :=
  ⟨by decide,
   log_log_discards_when_disabled ⟨"dm", 12, some (), LogSink.file⟩ 1
     "measure.c" 59 "msg" (by decide)⟩

/-! ## Claim C10 -/

/-- C10: for normalized timespec values denoting time points with
start <= end, measure_diff returns exactly end minus start in nanoseconds,
and the result is itself normalized with a non-negative seconds field; in
consequence timespec_to_ms of the result (the value timer_remaining and
timer_elapsed report) is non-negative. -/
theorem measure_diff_exact_and_normalized (s e : Timespec)
    (hs : tsNormalized s) (he : tsNormalized e)
    (hle : toNanos s ≤ toNanos e) :
    toNanos (measure_diff s e) = toNanos e - toNanos s
    ∧ 0 ≤ (measure_diff s e).tv_sec
    ∧ tsNormalized (measure_diff s e)
    ∧ 0 ≤ timespec_to_ms (measure_diff s e) := by
  obtain ⟨hs1, hs2⟩ := hs
  obtain ⟨he1, he2⟩ := he
  rw [toNanos, toNanos] at hle
  have key : toNanos (measure_diff s e) = toNanos e - toNanos s
      ∧ 0 ≤ (measure_diff s e).tv_sec
      ∧ 0 ≤ (measure_diff s e).tv_nsec
      ∧ (measure_diff s e).tv_nsec < 1000000000 := by
    rw [measure_diff]
    split
    · rw [toNanos, toNanos, toNanos]
      simp only
      constructor
      · ring
      · omega
    · rw [toNanos, toNanos, toNanos]
      simp only
      constructor
      · ring
      · omega
  obtain ⟨k1, k2, k3, k4⟩ := key
  refine ⟨k1, k2, ⟨k3, k4⟩, ?_⟩
  rw [timespec_to_ms]
  have hdiv : 0 ≤ (measure_diff s e).tv_nsec / 1000000 :=
    Int.ediv_nonneg k3 (by norm_num)
  have hmul : 0 ≤ (measure_diff s e).tv_sec * 1000 := by positivity
  omega

/-- Witness for C10 at start 1.999999999s and end 3.000000005s. -/
theorem measure_diff_exact_and_normalized_witness :
    tsNormalized ⟨1, 999999999⟩ ∧ tsNormalized ⟨3, 5⟩
    ∧ toNanos ⟨1, 999999999⟩ ≤ toNanos ⟨3, 5⟩
    ∧ (toNanos (measure_diff ⟨1, 999999999⟩ ⟨3, 5⟩)
        = toNanos ⟨3, 5⟩ - toNanos ⟨1, 999999999⟩
      ∧ 0 ≤ (measure_diff ⟨1, 999999999⟩ ⟨3, 5⟩).tv_sec
      ∧ tsNormalized (measure_diff ⟨1, 999999999⟩ ⟨3, 5⟩)
      ∧ 0 ≤ timespec_to_ms (measure_diff ⟨1, 999999999⟩ ⟨3, 5⟩)) :=
  ⟨⟨by decide, by decide⟩, ⟨by decide, by decide⟩, by decide,
   measure_diff_exact_and_normalized ⟨1, 999999999⟩ ⟨3, 5⟩
     ⟨by decide, by decide⟩ ⟨by decide, by decide⟩ (by decide)⟩
